import Mathlib

/-!
Verification of the markdown practice extractor
(`src/sources/MarkdownPracticeSource.ts`).

Strings are modelled as `List Char`; each JavaScript regex used by the
source is translated into an explicit deterministic matcher whose
backtracking behaviour was analysed pattern by pattern (the patterns in
this file admit deterministic resolutions of greedy and lazy operators;
the analysis is recorded next to each matcher).
-/

abbrev Str := List Char

def str (s : String) : Str := s.data

/-- The apostrophe character, written via its code point. -/
def apos : Char := Char.ofNat 39

/-- Prefix test on character lists (JS `String.prototype.startsWith` shape,
used to implement anchored regex pieces). -/
def begins : Str → Str → Bool
  | [], _ => true
  | _ :: _, [] => false
  | p :: ps, c :: cs => p == c && begins ps cs

/-- ASCII lowering, the fragment of JS `toLowerCase` exercised here. -/
def toLower (s : Str) : Str := s.map Char.toLower

/-- Case-insensitive prefix test (for `/i` regexes). -/
def ciBegins : Str → Str → Bool
  | [], _ => true
  | _ :: _, [] => false
  | p :: ps, c :: cs => p.toLower == c.toLower && ciBegins ps cs

/-- JS `String.prototype.includes`. -/
def containsSub (needle : Str) : Str → Bool
  | [] => begins needle []
  | s@(_ :: rest) => begins needle s || containsSub needle rest

/-- JS `String.prototype.indexOf` (as an `Option`; JS returns -1 on miss). -/
def idxOf (needle : Str) : Str → Option Nat
  | [] => if begins needle [] then some 0 else none
  | s@(_ :: rest) => if begins needle s then some 0 else (idxOf needle rest).map (· + 1)

/-- The whitespace class of JS `\s` / `String.prototype.trim`
(ASCII fragment plus NBSP). -/
def isJsWs (c : Char) : Bool :=
  c == ' ' || c == '\t' || c == '\n' || c == '\r' ||
  c == Char.ofNat 11 || c == Char.ofNat 12 || c == Char.ofNat 160

/-- JS `String.prototype.trim`. -/
def trimStr (s : Str) : Str :=
  ((s.dropWhile isJsWs).reverse.dropWhile isJsWs).reverse

/-- JS `\w` character class. -/
def isWordChar (c : Char) : Bool := c.isAlphanum || c == '_'

/-- The `[\w-]` character class. -/
def isWordDash (c : Char) : Bool := isWordChar c || c == '-'

/-- The `[:\s]` character class. -/
def isColonWs (c : Char) : Bool := c == ':' || isJsWs c

/-- The character class `@`, `\w`, slash, dash of the bracketed-rule pattern. -/
def isRuleChar (c : Char) : Bool := isWordChar c || c == '@' || c == '/' || c == '-'

/-- The character class of JS `.` without the `s` flag: any character other
than the line terminators LF, CR, U+2028 and U+2029. -/
def isDotChar (c : Char) : Bool :=
  !(c == '\n' || c == '\r' || c == Char.ofNat 8232 || c == Char.ofNat 8233)

/-! ## Section segmentation

`parsePractices` splits the body with `content.split(/\n(?=## )/)` and
matches each part against `/^## (.+)\n/`. -/

def h2mark : Str := str "## "

def consHead (c : Char) : List Str → List Str
  | [] => [[c]]
  | p :: ps => (c :: p) :: ps

/-- `content.split(/\n(?=## )/)`: cut at every newline that is immediately
followed by `"## "`; the newline (the separator) is dropped. -/
def splitSections : Str → List Str
  | [] => [[]]
  | c :: rest =>
    if c == '\n' && begins h2mark rest then [] :: splitSections rest
    else consHead c (splitSections rest)

/-- `section.match(/^## (.+)\n/)`: `.` matches anything but a line
terminator (LF, CR, U+2028, U+2029), so the greedy `(.+)` stops at the
first terminator, and the literal `\n` then requires that very terminator
to be the newline itself — a heading line containing a CR (every CRLF
document) is rejected, no shorter capture can help since the characters
before the terminator all match `.` and none is `\n`.  On success the
nonempty capture and the text after the whole match
(`section.slice(match[0].length)`) are returned. -/
def matchH2 (s : Str) : Option (Str × Str) :=
  if begins h2mark s then
    let t := s.drop 3
    let title := t.takeWhile isDotChar
    match t.dropWhile isDotChar with
    | '\n' :: after => if title.isEmpty then none else some (title, after)
    | _ => none
  else none

/-- Splitting a string into its lines (at every newline). -/
def splitLines : Str → List Str
  | [] => [[]]
  | c :: rest =>
    if c == '\n' then [] :: splitLines rest
    else consHead c (splitLines rest)

/-! ## slugify

```
text.toLowerCase().replace(/[^a-z0-9]+/g, '-').replace(/^-|-$/g, '')
```
-/

def dash : Char := '-'

def isSlugKeep (c : Char) : Bool :=
  ('a' ≤ c && c ≤ 'z') || ('0' ≤ c && c ≤ '9')

/-- `replace(/[^a-z0-9]+/g, '-')`: each maximal run of characters outside
`[a-z0-9]` becomes a single hyphen.  The flag records whether we are inside
such a run. -/
def collapseAux : Bool → Str → Str
  | _, [] => []
  | inRun, c :: rest =>
    if isSlugKeep c then c :: collapseAux false rest
    else if inRun then collapseAux true rest
    else dash :: collapseAux true rest

/-- `replace(/^-|-$/g, '')` removes at most one leading hyphen… -/
def stripLead : Str → Str
  | [] => []
  | c :: rest => if c == dash then rest else c :: rest

/-- …and at most one trailing hyphen. -/
def stripTrail : Str → Str
  | [] => []
  | [c] => if c == dash then [] else [c]
  | c :: rest => c :: stripTrail rest

def slugify (t : Str) : Str :=
  stripTrail (stripLead (collapseAux false (toLower t)))

/-! ## Category inference (`extractCategory`) -/

def catScan (title content : Str) : Str :=
  let text := toLower (title ++ ' ' :: content)
  if containsSub (str "naming") text || containsSub (str "convention") text then
    str "naming"
  else if containsSub (str "format") text || containsSub (str "indent") text ||
      containsSub (str "spacing") text then str "formatting"
  else if containsSub (str "architect") text || containsSub (str "pattern") text ||
      containsSub (str "structure") text then str "architecture"
  else if containsSub (str "test") text || containsSub (str "spec") text ||
      containsSub (str "mock") text then str "testing"
  else if containsSub (str "security") text || containsSub (str "vulnerab") text ||
      containsSub (str "auth") text then str "security"
  else if containsSub (str "performance") text || containsSub (str "optimize") text ||
      containsSub (str "memory") text then str "performance"
  else if containsSub (str "document") text || containsSub (str "comment") text ||
      containsSub (str "readme") text then str "documentation"
  else if containsSub (str "error") text || containsSub (str "exception") text ||
      containsSub (str "throw") text then str "error-handling"
  else if containsSub (str "log") text || containsSub (str "trace") text ||
      containsSub (str "debug") text then str "logging"
  else if containsSub (str "depend") text || containsSub (str "package") text ||
      containsSub (str "import") text then str "dependency-management"
  else str "general"

/-- `if (frontmatter.category) return frontmatter.category` — JS truthiness:
an empty string falls through to the keyword scan. -/
def extractCategory (title content : Str) (fmCategory : Option Str) : Str :=
  match fmCategory with
  | some c => if c.isEmpty then catScan title content else c
  | none => catScan title content

/-! ## Severity inference (`extractSeverity`) -/

def severityScan (content : Str) : Str :=
  let lower := toLower content
  if containsSub (str "must") lower || containsSub (str "required") lower ||
      containsSub (str "always") lower then str "error"
  else if containsSub (str "should") lower || containsSub (str "recommended") lower then
    str "warning"
  else if containsSub (str "could") lower || containsSub (str "consider") lower ||
      containsSub (str "may") lower then str "suggestion"
  else str "suggestion"

def extractSeverity (content : Str) (fmSeverity : Option Str) : Str :=
  match fmSeverity with
  | some s => if s.isEmpty then severityScan content else s
  | none => severityScan content

/-! ## Fenced code blocks

The pattern `` ```[\w]*\n([\s\S]*?)``` ``.  `[\w]*` is greedy but `\w`
excludes the newline, so the language-word run is the maximal run of word
characters; the lazy capture stops at the first following `` ``` ``. -/

/-- The lazy `([\s\S]*?)``` ` tail: capture up to the first `` ``` ``,
returning the capture and the text after the closing fence. -/
def lazyCap : Str → Option (Str × Str)
  | [] => none
  | s@(c :: rest) =>
    if begins (str "```") s then some ([], s.drop 3)
    else (lazyCap rest).map (fun p => (c :: p.1, p.2))

/-- Matching the fence pattern anchored at the start of `s`: returns
(full matched text, capture, rest after the match). -/
def fenceMatchAt (s : Str) : Option (Str × Str × Str) :=
  if begins (str "```") s then
    let t := s.drop 3
    let lang := t.takeWhile isWordChar
    match t.dropWhile isWordChar with
    | '\n' :: body =>
      match lazyCap body with
      | some (cap, rest) => some (str "```" ++ lang ++ '\n' :: (cap ++ str "```"), cap, rest)
      | none => none
    | _ => none
  else none

/-- A fuel-driven scanner realising `matchAll` semantics: repeatedly find
the leftmost match, resume after its end.  Every matcher used here consumes
at least one character, so fuel equal to the string length suffices. -/
def scanAllF {α : Type} (f : Str → Option (α × Str)) : Nat → Str → List α
  | 0, _ => []
  | _ + 1, [] => []
  | fuel + 1, s@(_ :: rest) =>
    match f s with
    | some (a, r) => a :: scanAllF f fuel r
    | none => scanAllF f fuel rest

def scanAll {α : Type} (f : Str → Option (α × Str)) (s : Str) : List α :=
  scanAllF f s.length s

/-- `[...content.matchAll(/```[\w]*\n([\s\S]*?)```/g)]` as a list of
(full match text, capture) pairs. -/
def matchAllFences (s : Str) : List (Str × Str) :=
  scanAll (fun t => (fenceMatchAt t).map (fun x => ((x.1, x.2.1), x.2.2))) s

/-! ## Labeled example search

`/(?:good|…)[:\s]*\n```[\w]*\n([\s\S]*?)```/i`.  After the label word, the
greedy `[:\s]*` backtracks from its maximal run downwards until the literal
`\n` and the fence match; `descendRev` tries exactly those split points in
the regex engine's order. -/

def tryNlFence : Str → Option Str
  | '\n' :: v => (fenceMatchAt v).map (fun x => x.2.1)
  | _ => none

/-- Backtracking of `[:\s]*\n` followed by the fence: `revRun` is the
reversed portion of the maximal `[:\s]` run not yet given back, `tail` the
text at the current split point. -/
def descendRev : Str → Str → Option Str
  | revRun, tail =>
    match tryNlFence tail with
    | some cap => some cap
    | none =>
      match revRun with
      | [] => none
      | c :: rr => descendRev rr (c :: tail)

/-- Try the label alternatives in the alternation's order at one position;
on failure of the rest of the pattern the engine falls through to the next
alternative. -/
def labelHit : List Str → Str → Option Str
  | [], _ => none
  | l :: ls, s =>
    if ciBegins l s then
      let t := s.drop l.length
      match descendRev (t.takeWhile isColonWs).reverse (t.dropWhile isColonWs) with
      | some cap => some cap
      | none => labelHit ls s
    else labelHit ls s

/-- Leftmost search (`String.prototype.match` without `/g`). -/
def labelSearch (labels : List Str) : Str → Option Str
  | [] => none
  | s@(_ :: rest) =>
    match labelHit labels s with
    | some cap => some cap
    | none => labelSearch labels rest

def goodLabels : List Str :=
  [str "good", str "correct", str "do", str "preferred", str "recommended"]

/-- `don'?t` tries the apostrophe form first (greedy `'?`). -/
def dontApos : Str := str "don" ++ [apos, 't']

def badLabels : List Str :=
  [str "bad", str "incorrect", dontApos, str "dont", str "avoid", str "wrong"]

/-! ## extractExamples -/

structure ExPair where
  good : Option Str
  bad : Option Str
deriving DecidableEq

/-- JS truthiness of a possibly-absent string. -/
def jsTruthyOpt (o : Option Str) : Bool :=
  match o with
  | some s => !s.isEmpty
  | none => false

/-- `content.slice(0, content.indexOf(first))`, lowered — the text before
the first fenced block (JS `indexOf` misses give `slice(0, -1)`). -/
def preFirst (content full1 : Str) : Str :=
  toLower (match idxOf full1 content with
    | some i => content.take i
    | none => content.take (content.length - 1))

def exFallback (content : Str) (g0 b0 : Option Str) : ExPair :=
  match matchAllFences content with
  | (full1, cap1) :: (_, cap2) :: _ =>
    if containsSub (str "avoid") (preFirst content full1) ||
        containsSub (str "bad") (preFirst content full1) ||
        containsSub dontApos (preFirst content full1) then
      ⟨some (trimStr cap2), some (trimStr cap1)⟩
    else
      ⟨some (trimStr cap1), some (trimStr cap2)⟩
  | [(_, cap1)] => ⟨some (trimStr cap1), b0⟩
  | [] => ⟨g0, b0⟩

/-- `extractExamples`: the labeled scans run first; the fallback over raw
code blocks runs when both results are falsy (absent or empty after trim). -/
def extractExamples (content : Str) : ExPair :=
  let g0 := (labelSearch goodLabels content).map trimStr
  let b0 := (labelSearch badLabels content).map trimStr
  if !jsTruthyOpt g0 && !jsTruthyOpt b0 then exFallback content g0 b0
  else ⟨g0, b0⟩

/-! ## Description (`extractDescription`) -/

/-- `content.split(/\n\n+/)`: separators are maximal runs of at least two
newlines (the greedy `\n+` swallows the whole run). -/
def splitParaF : Nat → Str → Str → List Str
  | _, acc, [] => [acc.reverse]
  | 0, acc, s => [acc.reverse ++ s]
  | fuel + 1, acc, '\n' :: '\n' :: rest =>
    acc.reverse :: splitParaF fuel [] (rest.dropWhile (fun c => c == '\n'))
  | fuel + 1, acc, c :: rest => splitParaF fuel (c :: acc) rest

def splitPara (s : Str) : List Str := splitParaF s.length [] s

def extractDescription (content : Str) : Str :=
  match (splitPara content).find? (fun para =>
      let t := trimStr para
      !begins (str "```") t && !begins (str "#") t && !t.isEmpty) with
  | some para => trimStr para
  | none => trimStr (content.take 200)

/-! ## Rationale (`extractSection(content, 'rationale')`)

`/### rationale\s*\n([\s\S]*?)(?=\n###|$)/i`: the greedy `\s*` backtracks
downwards from its maximal run looking for the literal `\n`; the lazy
capture stops at the first `\n###` or at the end of the string. -/

def capUntilHdr : Str → Str
  | [] => []
  | s@(c :: rest) => if begins (str "\n###") s then [] else c :: capUntilHdr rest

def ratTry : Str → Option Str
  | '\n' :: v => some (capUntilHdr v)
  | _ => none

def ratDescend : Str → Str → Option Str
  | revRun, tail =>
    match ratTry tail with
    | some cap => some cap
    | none =>
      match revRun with
      | [] => none
      | c :: rr => ratDescend rr (c :: tail)

def ratAt (s : Str) : Option Str :=
  if ciBegins (str "### rationale") s then
    let t := s.drop 13
    ratDescend (t.takeWhile isJsWs).reverse (t.dropWhile isJsWs)
  else none

def extractSectionRationale : Str → Option Str
  | [] => none
  | s@(_ :: rest) =>
    match ratAt s with
    | some cap => some cap
    | none => extractSectionRationale rest

/-! ## Lint rules (`extractLintRules`) -/

/-- `/@typescript-eslint\/[\w-]+/g` (case-sensitive); no capture group, so
the pushed value is the full match. -/
def famAAt (s : Str) : Option (Str × Str) :=
  if begins (str "@typescript-eslint/") s then
    let t := s.drop 19
    let run := t.takeWhile isWordDash
    if run.isEmpty then none
    else some (str "@typescript-eslint/" ++ run, t.dropWhile isWordDash)
  else none

/-- `/eslint:?\s*([\w-]+)/gi`: the optional colon and the greedy `\s*` are
deterministic here because `:` and whitespace are not in `[\w-]`. -/
def famBAt (s : Str) : Option (Str × Str) :=
  if ciBegins (str "eslint") s then
    let t := s.drop 6
    let t2 := match t with
      | ':' :: r => r
      | _ => t
    let t3 := t2.dropWhile isJsWs
    let run := t3.takeWhile isWordDash
    if run.isEmpty then none else some (run, t3.dropWhile isWordDash)
  else none

/-- The bracketed-rule pattern (open bracket, optional backtick, one or more
characters from the class `@`, `\w`, slash, dash — captured — optional
backtick, close bracket, `\s*`, then `rule`, case-insensitive): the backtick
options and the greedy runs are deterministic because backtick, `]` and `r`
lie outside the neighbouring classes. -/
def famCAt (s : Str) : Option (Str × Str) :=
  match s with
  | '[' :: t =>
    let t1 := match t with
      | '`' :: r => r
      | _ => t
    let run := t1.takeWhile isRuleChar
    if run.isEmpty then none
    else
      let t2 := t1.dropWhile isRuleChar
      let t3 := match t2 with
        | '`' :: r => r
        | _ => t2
      match t3 with
      | ']' :: t4 =>
        let t5 := t4.dropWhile isJsWs
        if ciBegins (str "rule") t5 then some (run, t5.drop 4) else none
      | _ => none
  | _ => none

/-- `[...new Set(rules)]`: first insertion wins, insertion order kept. -/
def dedupGo : List Str → List Str → List Str
  | _, [] => []
  | seen, x :: rest =>
    if x ∈ seen then dedupGo seen rest else x :: dedupGo (x :: seen) rest

def dedupFirst (l : List Str) : List Str := dedupGo [] l

/-- The three pattern families are scanned one after the other; the result
is de-duplicated keeping first insertions. -/
def extractLintRules (content : Str) : List Str :=
  dedupFirst (scanAll famAAt content ++ scanAll famBAt content ++ scanAll famCAt content)

/-! ## Tags (`extractTags`) -/

/-- `/```(\w+)/g`. -/
def tagAt (s : Str) : Option (Str × Str) :=
  if begins (str "```") s then
    let run := (s.drop 3).takeWhile isWordChar
    if run.isEmpty then none else some (run, (s.drop 3).dropWhile isWordChar)
  else none

/-- Front-matter tags (lower-cased) first, then fence language words except
the literal `text` (compared before lower-casing), de-duplicated. -/
def extractTags (content : Str) (fmTags : List Str) : List Str :=
  dedupFirst (fmTags.map toLower ++
    ((scanAll tagAt content).filter (fun t => !(t == str "text"))).map toLower)

/-! ## Practice assembly (`parsePractices`) -/

structure Frontmatter where
  category : Option Str
  severity : Option Str
  language : Option Str
  framework : Option Str
  tags : List Str
deriving DecidableEq

def emptyFm : Frontmatter := ⟨none, none, none, none, []⟩

structure Practice where
  id : Str
  title : Str
  description : Str
  category : Str
  severity : Str
  language : Str
  framework : Option Str
  goodExample : Option Str
  badExample : Option Str
  rationale : Option Str
  lintRules : List Str
  tags : List Str
deriving DecidableEq

/-- JS `a || d` for a possibly-absent string with a mandatory default. -/
def jsOrD (o : Option Str) (d : Str) : Str :=
  match o with
  | some s => if s.isEmpty then d else s
  | none => d

def mkPractice (fm : Frontmatter) (title sectionContent : Str) : Practice :=
  ⟨slugify title, title,
   extractDescription sectionContent,
   extractCategory title sectionContent fm.category,
   extractSeverity sectionContent fm.severity,
   jsOrD fm.language (str "general"),
   fm.framework,
   (extractExamples sectionContent).good,
   (extractExamples sectionContent).bad,
   (extractSectionRationale sectionContent).map trimStr,
   extractLintRules sectionContent,
   extractTags sectionContent fm.tags⟩

def parsePractices (content : Str) (fm : Frontmatter) : List Practice :=
  (splitSections content).filterMap (fun sec =>
    (matchH2 sec).map (fun p => mkPractice fm (trimStr p.1) p.2))

/-! ## Per-practice document metadata (`loadPracticeDocument`, lines 98–110) -/

structure SourceCfg where
  language : Option Str
  framework : Option Str
deriving DecidableEq

structure DocMeta where
  language : Str
  framework : Option Str
  hasGoodExample : Bool
  hasBadExample : Bool
deriving DecidableEq

def jsOrOpt (a b : Option Str) : Option Str := if jsTruthyOpt a then a else b

/-- `language: practice.language || this.config.language || 'general'`,
`framework: practice.framework || this.config.framework`,
`hasGoodExample: !!practice.goodExample`, `hasBadExample: !!practice.badExample`. -/
def practiceDocMeta (cfg : SourceCfg) (p : Practice) : DocMeta :=
  ⟨jsOrD (some p.language) (jsOrD cfg.language (str "general")),
   jsOrOpt p.framework cfg.framework,
   jsTruthyOpt p.goodExample,
   jsTruthyOpt p.badExample⟩

/-! ## Claim-side definitions

The definitions below are written from the specification's wording, to be
compared with the source translations above. -/

/-- Claim-side: a well-formed second-level heading line that the heading
pattern can accept — a line starting with the two heading markers and a
space, followed by nonempty text (spec §4.2 and §8) none of whose
characters is a further line terminator (CR, U+2028, U+2029): the JS dot
in `/^## (.+)\n/` rejects a CR-bearing — e.g. CRLF — heading line. -/
def isH2Line (l : Str) : Bool :=
  begins h2mark l && !(l.drop 3).isEmpty && (l.drop 3).all isDotChar

/-- Claim-side (amended C1): the headings that yield a practice record,
computed line by line — a well-formed heading line (per `isH2Line`,
including freedom from stray line terminators) that is terminated by a
newline (some line follows it) and whose following line is not itself the
start of a second-level heading. -/
def amendedRecords : List Str → List Str
  | [] => []
  | l :: ls =>
    if isH2Line l && (match ls with
        | l2 :: _ => !begins h2mark l2
        | [] => false) then
      l.drop 3 :: amendedRecords ls
    else amendedRecords ls

/-- Inverse of `splitLines`: rejoin lines with newlines. -/
def unsplit : List Str → Str
  | [] => []
  | [l] => l
  | l :: ls => l ++ '\n' :: unsplit ls

/-- Claim-side (C3): the ordered category keyword table of spec §4.3. -/
def categoryRules : List (Str × List Str) :=
  [(str "naming", [str "naming", str "convention"]),
   (str "formatting", [str "format", str "indent", str "spacing"]),
   (str "architecture", [str "architect", str "pattern", str "structure"]),
   (str "testing", [str "test", str "spec", str "mock"]),
   (str "security", [str "security", str "vulnerab", str "auth"]),
   (str "performance", [str "performance", str "optimize", str "memory"]),
   (str "documentation", [str "document", str "comment", str "readme"]),
   (str "error-handling", [str "error", str "exception", str "throw"]),
   (str "logging", [str "log", str "trace", str "debug"]),
   (str "dependency-management", [str "depend", str "package", str "import"])]

/-- Claim-side (C3): first rule in the fixed order any of whose keywords
occurs in the text wins; otherwise `general`. -/
def ruleScan : List (Str × List Str) → Str → Str
  | [], _ => str "general"
  | (cat, kws) :: rest, text =>
    if kws.any (fun k => containsSub k text) then cat else ruleScan rest text

/-- Claim-side (C3): front-matter category verbatim when declared (nonempty),
else the keyword scan over heading text and section body, else `general`. -/
def specCategory (title content : Str) (fmCategory : Option Str) : Str :=
  match fmCategory with
  | some c => if c.isEmpty then ruleScan categoryRules (toLower (title ++ ' ' :: content)) else c
  | none => ruleScan categoryRules (toLower (title ++ ' ' :: content))

/-- Claim-side (C4): the ordered severity tier table of spec §4.4. -/
def severityTiers : List (Str × List Str) :=
  [(str "error", [str "must", str "required", str "always"]),
   (str "warning", [str "should", str "recommended"]),
   (str "suggestion", [str "could", str "consider", str "may"])]

def tierScan : List (Str × List Str) → Str → Str
  | [], _ => str "suggestion"
  | (sev, kws) :: rest, lower =>
    if kws.any (fun k => containsSub k lower) then sev else tierScan rest lower

/-- Claim-side (C4): front-matter severity when declared (nonempty), else
the tier scan over the section body only, else `suggestion`. -/
def specSeverity (content : Str) (fmSeverity : Option Str) : Str :=
  match fmSeverity with
  | some s => if s.isEmpty then tierScan severityTiers (toLower content) else s
  | none => tierScan severityTiers (toLower content)

/-- Position of the first occurrence of `r` in `content` (length on miss). -/
def posOf (content r : Str) : Nat := (idxOf r content).getD content.length

def insertLe (key : Str → Nat) (x : Str) : List Str → List Str
  | [] => [x]
  | y :: ys => if key x < key y then x :: y :: ys else y :: insertLe key x ys

def sortByKey (key : Str → Nat) : List Str → List Str
  | [] => []
  | x :: xs => insertLe key x (sortByKey key xs)

/-- Claim-side (C7): the de-duplicated union of the three pattern-family
match lists, ordered by first occurrence in the section text. -/
def specLintRulesOrdered (content : Str) : List Str :=
  sortByKey (posOf content)
    (dedupFirst (scanAll famAAt content ++ scanAll famBAt content ++ scanAll famCAt content))

/-- Claim-side (C8): a well-formed slug — only lowercase alphanumerics and
hyphens, no leading or trailing hyphen, no two adjacent hyphens. -/
def noDD : Str → Bool
  | [] => true
  | [_] => true
  | c1 :: c2 :: rest => !(c1 == dash && c2 == dash) && noDD (c2 :: rest)

def headNotDash : Str → Bool
  | [] => true
  | c :: _ => !(c == dash)

def lastNotDash : Str → Bool
  | [] => true
  | [c] => !(c == dash)
  | _ :: rest => lastNotDash rest

def goodSlug (s : Str) : Bool :=
  s.all (fun c => isSlugKeep c || c == dash) && headNotDash s && noDD s && lastNotDash s

/-! ## Front-matter splitting, modelled from the spec (C9) -/

/-- Find the closing front-matter delimiter: split at the first
`"\n---\n"`, returning the text before it and the text after it. -/
def splitAtClose : Str → Option (Str × Str)
  | [] => none
  | s@(c :: rest) =>
    if begins (str "\n---\n") s then some ([], s.drop 5)
    else (splitAtClose rest).map (fun p => (c :: p.1, p.2))

/-- Split a line at its first colon. -/
def breakColon : Str → Option (Str × Str)
  | [] => none
  | ':' :: rest => some ([], rest)
  | c :: rest => (breakColon rest).map (fun p => (c :: p.1, p.2))

/-- Parse the metadata lines: every nonblank line must be a `key: value`
pair; any other nonblank line makes the block malformed. -/
def parseFmLines : List Str → Option (List (Str × Str))
  | [] => some []
  | l :: rest =>
    if (trimStr l).isEmpty then parseFmLines rest
    else
      match breakColon l with
      | some (k, v) => (parseFmLines rest).map (fun ps => (trimStr k, trimStr v) :: ps)
      | none => none

def lookupKey (k : Str) : List (Str × Str) → Option Str
  | [] => none
  | (a, v) :: rest => if a = k then some v else lookupKey k rest

def fmOfPairs (ps : List (Str × Str)) : Frontmatter :=
  ⟨lookupKey (str "category") ps, lookupKey (str "severity") ps,
   lookupKey (str "language") ps, lookupKey (str "framework") ps, []⟩

/-- Modelled from the spec: the front-matter splitter is the `gray-matter`
dependency, whose code is not part of this repository.  Spec §4.1: given raw
document text it returns (metadata, body); with no recognizable delimiter
the metadata is empty and the body is the full input; it never fails, and a
malformed metadata block yields an empty mapping rather than an error
(scalar `key: value` metadata fields are modelled; tag arrays are not). -/
def matterSplit (content : Str) : Frontmatter × Str :=
  if begins (str "---\n") content then
    match splitAtClose (content.drop 4) with
    | some (inside, after) =>
      match parseFmLines (splitLines inside) with
      | some ps => (fmOfPairs ps, after)
      | none => (emptyFm, after)
    | none => (emptyFm, content)
  else (emptyFm, content)

/-- Whether the document has a recognizable front-matter block whose
interior fails to parse. -/
def matterMalformed (content : Str) : Bool :=
  begins (str "---\n") content &&
    match splitAtClose (content.drop 4) with
    | some (inside, _) => (parseFmLines (splitLines inside)).isNone
    | none => false

/-- The whole extraction pipeline of one document: split the front matter,
then parse the body into practices. -/
def fullPipeline (content : Str) : List Practice :=
  parsePractices (matterSplit content).2 (matterSplit content).1

/-- The heading captures of `parsePractices`, before trimming — the spine of
the segmenter, used to relate it to the line-level characterization. -/
def parseTitles (body : Str) : List Str :=
  (splitSections body).filterMap (fun s => (matchH2 s).map Prod.fst)

/-! ## Helper lemmas for the section segmenter -/

theorem h2mark_eq : h2mark = ['#', '#', ' '] := rfl

theorem begins_iff (p : Str) : ∀ s, begins p s = true ↔ ∃ r, s = p ++ r := by
  induction p with
  | nil => intro s; simp [begins]
  | cons a ps ih =>
    intro s
    cases s with
    | nil => simp [begins]
    | cons c cs =>
      simp only [begins, Bool.and_eq_true, beq_iff_eq, ih cs]
      constructor
      · rintro ⟨rfl, r, rfl⟩; exact ⟨r, rfl⟩
      · rintro ⟨r, hr⟩
        rw [List.cons_append] at hr
        injection hr with h1 h2
        exact ⟨h1.symm, r, h2⟩

theorem begins_mono {p s : Str} (h : begins p s = true) (u : Str) :
    begins p (s ++ u) = true := by
  rw [begins_iff] at h ⊢
  obtain ⟨r, rfl⟩ := h
  exact ⟨r ++ u, by simp⟩

theorem splitSections_shape (s : Str) : ∃ h t, splitSections s = h :: t := by
  induction s with
  | nil => exact ⟨[], [], rfl⟩
  | cons c rest ih =>
    obtain ⟨h, t, hht⟩ := ih
    by_cases hc : (c == '\n' && begins h2mark rest) = true
    · exact ⟨[], splitSections rest, by simp [splitSections, hc]⟩
    · refine ⟨c :: h, t, ?_⟩
      simp only [splitSections, hc, Bool.false_eq_true, if_false, hht, consHead]

theorem sectionsAppend : ∀ (l s : Str), (∀ c ∈ l, ¬ c = '\n') →
    ∀ h t, splitSections s = h :: t → splitSections (l ++ s) = (l ++ h) :: t := by
  intro l
  induction l with
  | nil => intro s _ h t hs; simpa using hs
  | cons c l2 ih =>
    intro s hnl h t hs
    have hc : ¬ c = '\n' := hnl c (List.mem_cons_self c l2)
    have hcond : (c == '\n' && begins h2mark (l2 ++ s)) = false := by
      simp [beq_eq_false_iff_ne.mpr hc]
    have ih2 := ih s (fun d hd => hnl d (List.mem_cons_of_mem c hd)) h t hs
    simp only [List.cons_append, splitSections, List.append_eq, hcond, Bool.false_eq_true,
      if_false, ih2, consHead]

theorem head_isPre : ∀ (s : Str) (h : Str) (t : List Str),
    splitSections s = h :: t → ∃ r, s = h ++ r := by
  intro s
  induction s with
  | nil =>
    intro h t hs
    simp only [splitSections] at hs
    injection hs with h1 _
    exact ⟨[], by simp [← h1]⟩
  | cons c rest ih =>
    intro h t hs
    by_cases hc : (c == '\n' && begins h2mark rest) = true
    · simp only [splitSections, hc, if_true] at hs
      injection hs with h1 _
      exact ⟨c :: rest, by simp [← h1]⟩
    · simp only [splitSections, hc, Bool.false_eq_true, if_false] at hs
      obtain ⟨h2, t2, hht⟩ := splitSections_shape rest
      rw [hht] at hs
      simp only [consHead] at hs
      injection hs with h1 h2eq
      obtain ⟨r, hr⟩ := ih h2 t2 hht
      exact ⟨r, by rw [← h1, List.cons_append, ← hr]⟩

theorem begins_h2_append (l r : Str) :
    begins h2mark (l ++ '\n' :: r) = begins h2mark l := by
  match l with
  | [] => simp [h2mark_eq, begins]
  | [c1] => simp [h2mark_eq, begins]
  | [c1, c2] => simp [h2mark_eq, begins]
  | c1 :: c2 :: c3 :: l4 => simp [h2mark_eq, begins]

theorem dropWhile_head_false : ∀ (t : Str) (c : Char) (t2 : Str),
    t.dropWhile isDotChar = c :: t2 → isDotChar c = false := by
  intro t
  induction t with
  | nil => intro c t2 h; simp [List.dropWhile] at h
  | cons a t3 ih =>
    intro c t2 h
    by_cases ha : isDotChar a = true
    · simp only [List.dropWhile_cons, ha, if_true] at h
      exact ih c t2 h
    · have ha2 : isDotChar a = false := Bool.eq_false_iff.mpr ha
      simp only [List.dropWhile_cons, ha2, Bool.false_eq_true, if_false] at h
      injection h with h1 _
      rw [← h1]
      exact ha2

theorem dropWhile_mem_cons : ∀ (t : Str) (c : Char) (t2 : Str),
    t.dropWhile isDotChar = c :: t2 → c ∈ t := by
  intro t
  induction t with
  | nil => intro c t2 h; simp [List.dropWhile] at h
  | cons a t3 ih =>
    intro c t2 h
    by_cases ha : isDotChar a = true
    · simp only [List.dropWhile_cons, ha, if_true] at h
      exact List.mem_cons_of_mem a (ih c t2 h)
    · have ha2 : isDotChar a = false := Bool.eq_false_iff.mpr ha
      simp only [List.dropWhile_cons, ha2, Bool.false_eq_true, if_false] at h
      injection h with h1 _
      rw [← h1]
      exact List.mem_cons_self a t3

theorem dropWhile_app_of_cons : ∀ (t r : Str) (c : Char) (t2 : Str),
    t.dropWhile isDotChar = c :: t2 →
    (t ++ r).dropWhile isDotChar = c :: (t2 ++ r) := by
  intro t
  induction t with
  | nil => intro r c t2 h; simp [List.dropWhile] at h
  | cons a t3 ih =>
    intro r c t2 h
    by_cases ha : isDotChar a = true
    · simp only [List.dropWhile_cons, ha, if_true] at h
      simp only [List.cons_append, List.dropWhile_cons, ha, if_true]
      exact ih r c t2 h
    · have ha2 : isDotChar a = false := Bool.eq_false_iff.mpr ha
      simp only [List.dropWhile_cons, ha2, Bool.false_eq_true, if_false] at h
      injection h with h1 h2
      simp only [List.cons_append, List.dropWhile_cons, ha2, Bool.false_eq_true, if_false]
      rw [h1, h2]

theorem dropWhile_ne_nil_of_all_false : ∀ (t : Str), t.all isDotChar = false →
    ∃ c t2, t.dropWhile isDotChar = c :: t2 := by
  intro t
  induction t with
  | nil => intro h; simp [List.all_nil] at h
  | cons a t3 ih =>
    intro h
    by_cases ha : isDotChar a = true
    · simp only [List.all_cons, ha, Bool.true_and] at h
      obtain ⟨c, t2, hct⟩ := ih h
      exact ⟨c, t2, by simp only [List.dropWhile_cons, ha, if_true]; exact hct⟩
    · have ha2 : isDotChar a = false := Bool.eq_false_iff.mpr ha
      exact ⟨a, t3, by simp only [List.dropWhile_cons, ha2, Bool.false_eq_true, if_false]⟩

theorem takeWhile_app_dot : ∀ (t h : Str), t.all isDotChar = true →
    (t ++ '\n' :: h).takeWhile isDotChar = t := by
  intro t h
  induction t with
  | nil =>
    intro _
    simp [List.takeWhile_cons, show isDotChar '\n' = false from by decide]
  | cons a t2 ih =>
    intro hall
    simp only [List.all_cons, Bool.and_eq_true] at hall
    simp only [List.cons_append, List.takeWhile_cons, hall.1, if_true]
    rw [ih hall.2]

theorem dropWhile_app_dot : ∀ (t h : Str), t.all isDotChar = true →
    (t ++ '\n' :: h).dropWhile isDotChar = '\n' :: h := by
  intro t h
  induction t with
  | nil =>
    intro _
    simp [List.dropWhile_cons, show isDotChar '\n' = false from by decide]
  | cons a t2 ih =>
    intro hall
    simp only [List.all_cons, Bool.and_eq_true] at hall
    simp only [List.cons_append, List.dropWhile_cons, hall.1, if_true]
    exact ih hall.2

theorem matchH2_none_of_nonl (l : Str) (hnl : ∀ c ∈ l, ¬ c = '\n') :
    matchH2 l = none := by
  by_cases hb : begins h2mark l = true
  · obtain ⟨t, rfl⟩ := (begins_iff h2mark l).mp hb
    have ht : ∀ c ∈ t, ¬ c = '\n' := by
      intro c hc
      exact hnl c (by rw [h2mark_eq]; simp [hc])
    simp only [matchH2, hb, if_true]
    rw [show (h2mark ++ t).drop 3 = t from by rw [h2mark_eq]; rfl]
    cases hd : t.dropWhile isDotChar with
    | nil => rfl
    | cons c t2 =>
      have hcnl : ¬ c = '\n' := ht c (dropWhile_mem_cons t c t2 hd)
      split
      · rename_i after heq
        injection heq with h1 _
        exact absurd h1 hcnl
      · rfl
  · simp [matchH2, hb]

theorem matchH2_decomp (l h : Str) (hnl : ∀ c ∈ l, ¬ c = '\n') :
    matchH2 (l ++ '\n' :: h) = if isH2Line l then some (l.drop 3, h) else none := by
  by_cases hb : begins h2mark l = true
  · obtain ⟨t, rfl⟩ := (begins_iff h2mark l).mp hb
    have ht : ∀ c ∈ t, ¬ c = '\n' := by
      intro c hc
      exact hnl c (by rw [h2mark_eq]; simp [hc])
    have hself : begins h2mark h2mark = true := by rw [begins_iff]; exact ⟨[], by simp⟩
    have hb2 : begins h2mark ((h2mark ++ t) ++ '\n' :: h) = true := by
      rw [List.append_assoc]
      exact begins_mono hself _
    have hdrop3 : (h2mark ++ t).drop 3 = t := by rw [h2mark_eq]; rfl
    have hdrop3b : ((h2mark ++ t) ++ '\n' :: h).drop 3 = t ++ '\n' :: h := by
      rw [List.append_assoc, h2mark_eq]; rfl
    by_cases hall : t.all isDotChar = true
    · simp only [matchH2, hb2, if_true, hdrop3b, takeWhile_app_dot t h hall,
        dropWhile_app_dot t h hall, isH2Line, hb, Bool.true_and, hdrop3, hall,
        Bool.and_true]
      by_cases he : t.isEmpty = true
      · simp [he]
      · simp [he]
    · have hallf : t.all isDotChar = false := Bool.eq_false_iff.mpr hall
      obtain ⟨c, t2, hd⟩ := dropWhile_ne_nil_of_all_false t hallf
      have hcnl : ¬ c = '\n' := ht c (dropWhile_mem_cons t c t2 hd)
      have happ : (t ++ '\n' :: h).dropWhile isDotChar = c :: (t2 ++ '\n' :: h) :=
        dropWhile_app_of_cons t ('\n' :: h) c t2 hd
      have hline : isH2Line (h2mark ++ t) = false := by
        simp [isH2Line, hdrop3, hallf]
      simp only [matchH2, hb2, if_true, hdrop3b, happ, hline, Bool.false_eq_true, if_false]
      split
      · rename_i after heq
        injection heq with h1 _
        exact absurd h1 hcnl
      · rfl
  · have hbf : begins h2mark l = false := Bool.eq_false_iff.mpr hb
    have hb2 : begins h2mark (l ++ '\n' :: h) = false := by
      rw [begins_h2_append]; exact hbf
    simp [matchH2, hb2, isH2Line, hbf]

theorem unsplit_cons₂ (l l2 : Str) (ls : List Str) :
    unsplit (l :: l2 :: ls) = l ++ '\n' :: unsplit (l2 :: ls) := rfl

theorem splitLines_shape (s : Str) : ∃ h t, splitLines s = h :: t := by
  induction s with
  | nil => exact ⟨[], [], rfl⟩
  | cons c rest ih =>
    obtain ⟨h, t, hht⟩ := ih
    by_cases hc : (c == '\n') = true
    · exact ⟨[], splitLines rest, by simp [splitLines, hc]⟩
    · refine ⟨c :: h, t, ?_⟩
      simp only [splitLines, hc, Bool.false_eq_true, if_false, hht, consHead]

theorem unsplit_consHead (c : Char) (h : Str) (t : List Str) :
    unsplit (consHead c (h :: t)) = c :: unsplit (h :: t) := by
  cases t with
  | nil => rfl
  | cons t2 ts => rfl

theorem unsplit_splitLines (s : Str) : unsplit (splitLines s) = s := by
  induction s with
  | nil => rfl
  | cons c rest ih =>
    by_cases hc : (c == '\n') = true
    · obtain ⟨h, t, hht⟩ := splitLines_shape rest
      rw [beq_iff_eq] at hc
      subst hc
      simp only [splitLines, beq_self_eq_true, if_true, hht]
      rw [show unsplit ([] :: h :: t) = [] ++ '\n' :: unsplit (h :: t) from rfl]
      rw [← hht, ih]
      rfl
    · obtain ⟨h, t, hht⟩ := splitLines_shape rest
      simp only [splitLines, hc, Bool.false_eq_true, if_false, hht]
      rw [unsplit_consHead, ← hht, ih]

theorem noNl_splitLines (s : Str) : ∀ l ∈ splitLines s, ∀ c ∈ l, ¬ c = '\n' := by
  induction s with
  | nil =>
    intro l hl
    simp only [splitLines, List.mem_singleton] at hl
    subst hl
    intro c hc
    simp at hc
  | cons c rest ih =>
    by_cases hc : (c == '\n') = true
    · intro l hl
      simp only [splitLines, hc, if_true, List.mem_cons] at hl
      rcases hl with rfl | hl
      · intro d hd; simp at hd
      · exact ih l hl
    · obtain ⟨h, t, hht⟩ := splitLines_shape rest
      intro l hl
      simp only [splitLines, hc, Bool.false_eq_true, if_false, hht, consHead,
        List.mem_cons] at hl
      rcases hl with rfl | hl
      · intro d hd
        rcases List.mem_cons.mp hd with rfl | hd2
        · rw [beq_iff_eq] at hc; exact hc
        · exact ih h (by rw [hht]; exact List.mem_cons_self h t) d hd2
      · exact ih l (by rw [hht]; exact List.mem_cons_of_mem h hl)

theorem begins_h2_unsplit (l2 : Str) (ls : List Str) :
    begins h2mark (unsplit (l2 :: ls)) = begins h2mark l2 := by
  cases ls with
  | nil => rfl
  | cons l3 ls3 => rw [unsplit_cons₂, begins_h2_append]

theorem parseTitles_nil_shape : parseTitles [] = [] := by
  simp [parseTitles, splitSections, matchH2, begins, h2mark_eq]

theorem titles_aux : ∀ (lines : List Str),
    (∀ l ∈ lines, ∀ c ∈ l, ¬ c = '\n') →
    parseTitles (unsplit lines) = amendedRecords lines := by
  intro lines
  induction lines with
  | nil => intro _; exact parseTitles_nil_shape
  | cons l ls ih =>
    intro hnl
    have hl : ∀ c ∈ l, ¬ c = '\n' := hnl l (List.mem_cons_self l ls)
    cases ls with
    | nil =>
      have hsec : splitSections l = [l] := by
        have h0 : splitSections ([] : Str) = [] :: [] := rfl
        have := sectionsAppend l [] hl [] [] h0
        simpa using this
      show parseTitles l = amendedRecords [l]
      rw [parseTitles, hsec]
      simp [List.filterMap_cons, matchH2_none_of_nonl l hl, amendedRecords]
    | cons l2 ls2 =>
      have hrest : ∀ m ∈ l2 :: ls2, ∀ c ∈ m, ¬ c = '\n' :=
        fun m hm => hnl m (List.mem_cons_of_mem l hm)
      have ihu := ih hrest
      rw [unsplit_cons₂]
      by_cases hb : begins h2mark l2 = true
      · -- the following line is itself a heading: the separator eats the newline
        have hbu : begins h2mark (unsplit (l2 :: ls2)) = true := by
          rw [begins_h2_unsplit]; exact hb
        have hsp : splitSections ('\n' :: unsplit (l2 :: ls2)) =
            [] :: splitSections (unsplit (l2 :: ls2)) := by
          simp [splitSections, hbu]
        have happ := sectionsAppend l ('\n' :: unsplit (l2 :: ls2)) hl
          [] (splitSections (unsplit (l2 :: ls2))) hsp
        rw [parseTitles, happ]
        simp only [List.append_nil, List.filterMap_cons, matchH2_none_of_nonl l hl]
        rw [← parseTitles, ihu]
        have hcond : (isH2Line l && !begins h2mark l2) = false := by
          rw [hb]; simp
        rw [show amendedRecords (l :: l2 :: ls2) =
            if isH2Line l && !begins h2mark l2 then l.drop 3 :: amendedRecords (l2 :: ls2)
            else amendedRecords (l2 :: ls2) from rfl, hcond]
        simp
      · -- the following line is ordinary text: the newline stays in the section
        have hbf : begins h2mark l2 = false := Bool.eq_false_iff.mpr hb
        have hbu : begins h2mark (unsplit (l2 :: ls2)) = false := by
          rw [begins_h2_unsplit]; exact hbf
        obtain ⟨h2, t2, hht⟩ := splitSections_shape (unsplit (l2 :: ls2))
        have hsp : splitSections ('\n' :: unsplit (l2 :: ls2)) = ('\n' :: h2) :: t2 := by
          simp only [splitSections, hbu, Bool.and_false, Bool.false_eq_true, if_false, hht,
            consHead]
        have happ := sectionsAppend l ('\n' :: unsplit (l2 :: ls2)) hl
          ('\n' :: h2) t2 hsp
        have hmh2 : matchH2 h2 = none := by
          by_cases hbh : begins h2mark h2 = true
          · exfalso
            obtain ⟨r, hr⟩ := head_isPre (unsplit (l2 :: ls2)) h2 t2 hht
            have : begins h2mark (unsplit (l2 :: ls2)) = true := by
              rw [hr]
              exact begins_mono hbh r
            rw [hbu] at this
            exact Bool.false_ne_true this
          · simp [matchH2, hbh]
        have hihu : List.filterMap (fun s => (matchH2 s).map Prod.fst) t2 =
            amendedRecords (l2 :: ls2) := by
          rw [← ihu, parseTitles, hht]
          simp [List.filterMap_cons, hmh2]
        rw [parseTitles, happ]
        simp only [List.filterMap_cons]
        rw [matchH2_decomp l h2 hl, hihu]
        rw [show amendedRecords (l :: l2 :: ls2) =
            if isH2Line l && !begins h2mark l2 then l.drop 3 :: amendedRecords (l2 :: ls2)
            else amendedRecords (l2 :: ls2) from rfl, hbf]
        by_cases hline : isH2Line l = true
        · simp [hline]
        · simp [Bool.eq_false_iff.mpr hline]

theorem parseTitles_eq_amended (body : Str) :
    parseTitles body = amendedRecords (splitLines body) := by
  have := titles_aux (splitLines body) (noNl_splitLines body)
  rwa [unsplit_splitLines] at this

theorem map_title_parsePractices (body : Str) (fm : Frontmatter) :
    (parsePractices body fm).map (fun p => p.title) = (parseTitles body).map trimStr := by
  rw [parsePractices, parseTitles, List.map_filterMap, List.map_filterMap]
  congr 1
  funext sec
  cases matchH2 sec with
  | none => rfl
  | some q => rfl

/-! ## Helper lemmas for slug well-formedness -/

theorem keep_ne_dash {c : Char} (h : isSlugKeep c = true) : (c == dash) = false := by
  by_cases hc : c = dash
  · subst hc
    exact absurd h (by decide)
  · exact beq_eq_false_iff_ne.mpr hc

theorem collapse_chars (b : Bool) (l : Str) :
    (collapseAux b l).all (fun c => isSlugKeep c || c == dash) = true := by
  induction l generalizing b with
  | nil => rfl
  | cons c rest ih =>
    by_cases hk : isSlugKeep c = true
    · simp [collapseAux, hk, ih false]
    · cases b with
      | true => simpa [collapseAux, hk] using ih true
      | false => simp [collapseAux, hk, ih true]

theorem collapse_true_head (l : Str) : headNotDash (collapseAux true l) = true := by
  induction l with
  | nil => rfl
  | cons c rest ih =>
    by_cases hk : isSlugKeep c = true
    · simp [collapseAux, hk, headNotDash, keep_ne_dash hk]
    · simpa [collapseAux, hk] using ih

theorem noDD_cons {c : Char} {X : Str}
    (h1 : (c == dash) = false ∨ headNotDash X = true) (h2 : noDD X = true) :
    noDD (c :: X) = true := by
  cases X with
  | nil => rfl
  | cons c2 rest =>
    simp only [noDD, Bool.and_eq_true]
    refine ⟨?_, h2⟩
    rcases h1 with h | h
    · simp [h]
    · simp only [headNotDash, Bool.not_eq_true'] at h
      simp [h]

theorem noDD_tail {c : Char} {rest : Str} (h : noDD (c :: rest) = true) :
    noDD rest = true := by
  cases rest with
  | nil => rfl
  | cons c2 r =>
    simp only [noDD, Bool.and_eq_true] at h
    exact h.2

theorem collapse_noDD (b : Bool) (l : Str) : noDD (collapseAux b l) = true := by
  induction l generalizing b with
  | nil => rfl
  | cons c rest ih =>
    by_cases hk : isSlugKeep c = true
    · simp only [collapseAux, hk, if_true]
      exact noDD_cons (Or.inl (keep_ne_dash hk)) (ih false)
    · cases b with
      | true => simpa [collapseAux, hk] using ih true
      | false =>
        simp only [collapseAux, hk, Bool.false_eq_true, if_false]
        exact noDD_cons (Or.inr (collapse_true_head rest)) (ih true)

theorem stripLead_head {s : Str} (h : noDD s = true) :
    headNotDash (stripLead s) = true := by
  cases s with
  | nil => rfl
  | cons c rest =>
    by_cases hc : (c == dash) = true
    · simp only [stripLead, hc, if_true]
      cases rest with
      | nil => rfl
      | cons c2 r2 =>
        simp only [noDD, Bool.and_eq_true] at h
        have := h.1
        simp only [hc, Bool.true_and, Bool.not_eq_true'] at this
        simp [headNotDash, this]
    · simp only [stripLead, hc, Bool.false_eq_true, if_false]
      simp only [headNotDash, Bool.not_eq_true']
      exact Bool.eq_false_iff.mpr (fun hcc => by rw [hcc] at hc; exact hc rfl)

theorem stripLead_noDD {s : Str} (h : noDD s = true) : noDD (stripLead s) = true := by
  cases s with
  | nil => rfl
  | cons c rest =>
    by_cases hc : (c == dash) = true
    · simp only [stripLead, hc, if_true]
      exact noDD_tail h
    · simpa only [stripLead, hc, Bool.false_eq_true, if_false] using h

theorem stripLead_all {P : Char → Bool} {s : Str} (h : s.all P = true) :
    (stripLead s).all P = true := by
  cases s with
  | nil => rfl
  | cons c rest =>
    by_cases hc : (c == dash) = true
    · simp only [stripLead, hc, if_true]
      simp only [List.all_cons, Bool.and_eq_true] at h
      exact h.2
    · simpa only [stripLead, hc, Bool.false_eq_true, if_false] using h

theorem stripTrail_all {P : Char → Bool} : ∀ {s : Str}, s.all P = true →
    (stripTrail s).all P = true := by
  intro s
  induction s with
  | nil => intro _; rfl
  | cons c rest ih =>
    intro h
    cases rest with
    | nil =>
      by_cases hc : (c == dash) = true
      · simp [stripTrail, hc]
      · simpa [stripTrail, hc] using h
    | cons c2 r2 =>
      simp only [List.all_cons, Bool.and_eq_true] at h
      simp only [stripTrail, List.all_cons, Bool.and_eq_true]
      exact ⟨h.1, by
        have := ih (by simp [List.all_cons, h.2.1, h.2.2])
        simpa using this⟩

theorem stripTrail_head {s : Str} (h : headNotDash s = true) :
    headNotDash (stripTrail s) = true := by
  cases s with
  | nil => rfl
  | cons c rest =>
    cases rest with
    | nil =>
      by_cases hc : (c == dash) = true
      · simp [stripTrail, hc, headNotDash]
      · simp only [stripTrail, hc, Bool.false_eq_true, if_false]
        exact h
    | cons c2 r2 =>
      simpa only [stripTrail, headNotDash] using h

theorem stripTrail_noDD : ∀ {s : Str}, noDD s = true → noDD (stripTrail s) = true := by
  intro s
  induction s with
  | nil => intro _; rfl
  | cons c rest ih =>
    intro h
    cases rest with
    | nil =>
      by_cases hc : (c == dash) = true
      · simp [stripTrail, hc, noDD]
      · simp [stripTrail, hc, noDD]
    | cons c2 r2 =>
      have htl : noDD (stripTrail (c2 :: r2)) = true := ih (noDD_tail h)
      simp only [stripTrail]
      apply noDD_cons ?_ htl
      simp only [noDD, Bool.and_eq_true] at h
      by_cases hc : (c == dash) = true
      · right
        have hc2 : (c2 == dash) = false := by
          have := h.1
          simp only [hc, Bool.true_and, Bool.not_eq_true'] at this
          exact this
        have hh : headNotDash (c2 :: r2) = true := by simp [headNotDash, hc2]
        exact stripTrail_head hh
      · exact Or.inl (Bool.eq_false_iff.mpr hc)

theorem lastNotDash_cons {c : Char} {Y : Str} (hY : Y ≠ []) :
    lastNotDash (c :: Y) = lastNotDash Y := by
  cases Y with
  | nil => exact absurd rfl hY
  | cons y ys => rfl

theorem stripTrail_last : ∀ {s : Str}, noDD s = true →
    lastNotDash (stripTrail s) = true := by
  intro s
  induction s with
  | nil => intro _; rfl
  | cons c rest ih =>
    intro h
    cases rest with
    | nil =>
      by_cases hc : (c == dash) = true
      · simp [stripTrail, hc, lastNotDash]
      · simp [stripTrail, hc, lastNotDash]
    | cons c2 r2 =>
      simp only [stripTrail]
      cases hY : stripTrail (c2 :: r2) with
      | nil =>
        -- the tail collapsed, so it was a single hyphen element
        cases r2 with
        | nil =>
          by_cases hc2 : (c2 == dash) = true
          · simp only [noDD, Bool.and_eq_true] at h
            have hc : (c == dash) = false := by
              have := h.1
              simp only [hc2, Bool.and_true, Bool.not_eq_true'] at this
              exact this
            simp [lastNotDash, hc]
          · simp only [stripTrail, hc2, Bool.false_eq_true, if_false] at hY
            exact absurd hY (by simp)
        | cons c3 r3 =>
          simp only [stripTrail] at hY
          exact absurd hY (by simp)
      | cons y ys =>
        rw [lastNotDash_cons (by simp)]
        rw [← hY]
        exact ih (noDD_tail h)

theorem goodSlug_slugify (t : Str) : goodSlug (slugify t) = true := by
  have hall := collapse_chars false (toLower t)
  have hnoDD := collapse_noDD false (toLower t)
  have h1all := stripLead_all hall
  have h1noDD := stripLead_noDD hnoDD
  have h1head := stripLead_head hnoDD
  simp only [goodSlug, slugify, Bool.and_eq_true]
  exact ⟨⟨⟨stripTrail_all h1all, stripTrail_head h1head⟩, stripTrail_noDD h1noDD⟩,
    stripTrail_last h1noDD⟩

/-! ## Helper lemmas for the de-duplication of lint rules -/

theorem dedupGo_sublist (l : List Str) : ∀ seen, List.Sublist (dedupGo seen l) l := by
  induction l with
  | nil => intro seen; simp [dedupGo]
  | cons x rest ih =>
    intro seen
    by_cases hx : x ∈ seen
    · simp only [dedupGo, if_pos hx]
      exact List.Sublist.cons x (ih seen)
    · simp only [dedupGo, if_neg hx]
      exact List.Sublist.cons₂ x (ih (x :: seen))

theorem mem_dedupGo (l : List Str) : ∀ (seen : List Str) (x : Str),
    x ∈ dedupGo seen l ↔ (x ∈ l ∧ x ∉ seen) := by
  induction l with
  | nil => intro seen x; simp [dedupGo]
  | cons a rest ih =>
    intro seen x
    by_cases ha : a ∈ seen
    · rw [dedupGo, if_pos ha, ih]
      constructor
      · rintro ⟨hr, hs⟩
        exact ⟨List.mem_cons_of_mem a hr, hs⟩
      · rintro ⟨hm, hs⟩
        rcases List.mem_cons.mp hm with rfl | hr
        · exact absurd ha hs
        · exact ⟨hr, hs⟩
    · rw [dedupGo, if_neg ha]
      constructor
      · intro hm
        rcases List.mem_cons.mp hm with rfl | hr
        · exact ⟨List.mem_cons_self _ _, ha⟩
        · rw [ih] at hr
          exact ⟨List.mem_cons_of_mem a hr.1,
            fun hs => hr.2 (List.mem_cons_of_mem a hs)⟩
      · rintro ⟨hm, hs⟩
        rcases List.mem_cons.mp hm with rfl | hr
        · exact List.mem_cons_self _ _
        · by_cases hxa : x = a
          · subst hxa
            exact List.mem_cons_self _ _
          · apply List.mem_cons_of_mem
            rw [ih]
            refine ⟨hr, fun hmem => ?_⟩
            rcases List.mem_cons.mp hmem with h | h
            · exact hxa h
            · exact hs h

theorem nodup_dedupGo (l : List Str) : ∀ seen, (dedupGo seen l).Nodup := by
  induction l with
  | nil => intro seen; simp [dedupGo]
  | cons a rest ih =>
    intro seen
    by_cases ha : a ∈ seen
    · simpa only [dedupGo, if_pos ha] using ih seen
    · simp only [dedupGo, if_neg ha]
      refine List.nodup_cons.mpr ⟨?_, ih (a :: seen)⟩
      intro hmem
      rw [mem_dedupGo] at hmem
      exact hmem.2 (List.mem_cons_self a seen)

/-! ## Claim theorems -/

set_option maxRecDepth 4000

/-- C1, counterexample: the body `"## A\n## B\n"` contains two well-formed
second-level headings, but the extractor emits only one practice record —
the section split consumes the newline that terminates a heading
immediately followed by another heading, so that heading's section fails
the heading match and is dropped. -/
theorem c1_count_counterexample :
    (parsePractices (str "## A\n## B\n") emptyFm).length = 1
    ∧ ((splitLines (str "## A\n## B\n")).filter isH2Line).length = 2 := by
  constructor
  · decide
  · decide

/-- C1, amended: the extractor emits exactly one practice record per
well-formed second-level heading whose heading text contains no stray line
terminator (the JS dot excludes CR and the Unicode line separators, so a
CR-bearing — e.g. CRLF — heading line yields no record), that is
terminated by a newline, and whose immediately following line is not
itself the start of a second-level heading, in source order; content
before the first such heading (and any heading directly followed by
another heading, or ending the file without a newline) never yields a
record.  Stated as: the emitted titles are exactly the trimmed heading
texts of the kept heading lines. -/
theorem c1_heading_records_amended (body : Str) (fm : Frontmatter) :
    (parsePractices body fm).map (fun p => p.title) =
    (amendedRecords (splitLines body)).map trimStr := by
  rw [map_title_parsePractices, parseTitles_eq_amended]

/-- C2: the exact document `"## Use const\n\nPrefer const.\n\nGood:\n`
(fence)`js\nconst x=1;\n`(fence)`\n"` with no front matter yields exactly one
practice with title `Use const`, id `use-const`, category `general`,
severity `suggestion`, description `Prefer const.`, good example
`const x=1;`, no bad example, and tags `[js]`. -/
theorem c2_end_to_end :
    parsePractices (str "## Use const\n\nPrefer const.\n\nGood:\n```js\nconst x=1;\n```\n")
      emptyFm =
    [⟨str "use-const", str "Use const", str "Prefer const.", str "general",
      str "suggestion", str "general", none, some (str "const x=1;"), none, none,
      [], [str "js"]⟩] := by
  decide

/-- C3: the inferred category is the front-matter `category` verbatim when
the front matter declares one (ignoring body keywords); otherwise the
category of the first rule in the fixed ordered keyword table (naming,
formatting, architecture, testing, security, performance, documentation,
error-handling, logging, dependency-management) any of whose keywords
occurs case-insensitively in heading text plus section body; otherwise
`general` — the source chain equals the spec's ordered-table scan. -/
theorem c3_category_refines_spec (title content : Str) (fmCategory : Option Str) :
    extractCategory title content fmCategory = specCategory title content fmCategory := by
  cases fmCategory with
  | none =>
    simp [extractCategory, specCategory, catScan, ruleScan, categoryRules,
      List.any_cons, List.any_nil, Bool.or_false, Bool.or_assoc]
  | some s =>
    simp [extractCategory, specCategory, catScan, ruleScan, categoryRules,
      List.any_cons, List.any_nil, Bool.or_false, Bool.or_assoc]

/-- C4: severity is the front-matter `severity` when present, otherwise a
case-insensitive scan of the section body only, with the tiers tested in
order (must/required/always → error, else should/recommended → warning,
else could/consider/may → suggestion, else suggestion); in particular a
body containing `must` resolves to `error` even if `should` also occurs,
and a body containing `should` with no error-tier marker resolves to
`warning`. -/
theorem c4_severity (content : Str) (fmSeverity : Option Str) :
    extractSeverity content fmSeverity = specSeverity content fmSeverity
    ∧ (containsSub (str "must") (toLower content) = true →
        extractSeverity content none = str "error")
    ∧ (containsSub (str "should") (toLower content) = true →
        containsSub (str "must") (toLower content) = false →
        containsSub (str "required") (toLower content) = false →
        containsSub (str "always") (toLower content) = false →
        extractSeverity content none = str "warning") := by
  refine ⟨?_, ?_, ?_⟩
  · cases fmSeverity with
    | none =>
      simp [extractSeverity, specSeverity, severityScan, tierScan, severityTiers,
        List.any_cons, List.any_nil, Bool.or_false, Bool.or_assoc]
    | some s =>
      simp [extractSeverity, specSeverity, severityScan, tierScan, severityTiers,
        List.any_cons, List.any_nil, Bool.or_false, Bool.or_assoc]
  · intro h
    simp [extractSeverity, severityScan, h]
  · intro h1 h2 h3 h4
    simp [extractSeverity, severityScan, h1, h2, h3, h4]

/-- C4, witness: a body containing both `must` and `should` resolves to
`error` via `c4_severity`. -/
theorem c4_severity_witness :
    containsSub (str "must") (toLower (str "You must and should do this.")) = true
    ∧ extractSeverity (str "You must and should do this.") none = str "error" :=
  ⟨by decide,
   (c4_severity (str "You must and should do this.") none).2.1 (by decide)⟩

/-- C5: when the labeled-block search finds neither example, the fallback
over raw fenced blocks applies — zero blocks leave both fields absent; one
block becomes the good example with the bad example absent; with two or
more blocks the text preceding the first block decides: if it contains
`avoid`, `bad` or `don`(apostrophe)`t` the first block is the bad example
and the second the good one, otherwise the first is good and the second
bad. -/
theorem c5_example_fallback (content : Str)
    (hg : labelSearch goodLabels content = none)
    (hb : labelSearch badLabels content = none) :
    (matchAllFences content = [] → extractExamples content = ⟨none, none⟩)
    ∧ (∀ fb, matchAllFences content = [fb] →
        extractExamples content = ⟨some (trimStr fb.2), none⟩)
    ∧ (∀ fb1 fb2 rest, matchAllFences content = fb1 :: fb2 :: rest →
        ((containsSub (str "avoid") (preFirst content fb1.1) ||
          containsSub (str "bad") (preFirst content fb1.1) ||
          containsSub dontApos (preFirst content fb1.1)) = true →
          extractExamples content = ⟨some (trimStr fb2.2), some (trimStr fb1.2)⟩)
        ∧ ((containsSub (str "avoid") (preFirst content fb1.1) ||
          containsSub (str "bad") (preFirst content fb1.1) ||
          containsSub dontApos (preFirst content fb1.1)) = false →
          extractExamples content = ⟨some (trimStr fb1.2), some (trimStr fb2.2)⟩)) := by
  refine ⟨?_, ?_, ?_⟩
  · intro h0
    simp [extractExamples, hg, hb, jsTruthyOpt, exFallback, h0]
  · intro fb h1
    obtain ⟨full1, cap1⟩ := fb
    simp [extractExamples, hg, hb, jsTruthyOpt, exFallback, h1]
  · intro fb1 fb2 rest h2
    obtain ⟨full1, cap1⟩ := fb1
    obtain ⟨full2, cap2⟩ := fb2
    constructor
    · intro hyes
      simp [extractExamples, hg, hb, jsTruthyOpt, exFallback, h2, hyes]
    · intro hno
      simp only [Bool.or_eq_false_iff] at hno
      simp [extractExamples, hg, hb, jsTruthyOpt, exFallback, h2, hno.1, hno.2]

/-- C5, witness: a section with two unlabeled fenced blocks preceded by
`avoid this` makes the first block the bad example and the second the good
example, via `c5_example_fallback`. -/
theorem c5_example_fallback_witness :
    labelSearch goodLabels (str "avoid this\n```\nA\n```\nok\n```\nB\n```\n") = none
    ∧ labelSearch badLabels (str "avoid this\n```\nA\n```\nok\n```\nB\n```\n") = none
    ∧ extractExamples (str "avoid this\n```\nA\n```\nok\n```\nB\n```\n") =
        ⟨some (str "B"), some (str "A")⟩ := by
  refine ⟨by decide, by decide, ?_⟩
  have h := ((c5_example_fallback (str "avoid this\n```\nA\n```\nok\n```\nB\n```\n")
      (by decide) (by decide)).2.2 (str "```\nA\n```", str "A\n")
      (str "```\nB\n```", str "B\n") [] (by decide)).1 (by decide)
  exact h.trans (by decide)

/-- C6 (code bug): for a document whose front matter declares no language,
the emitted practice document's `metadata.language` is always `general`
even when the source config declares a language — `parsePractices`
pre-defaults `practice.language` to `general`, so the config fallback
written at the metadata assembly is dead; with front-matter
`language: typescript` the metadata does carry `typescript`. -/
theorem c6_config_language_ignored :
    (parsePractices (str "## A\nx\n") emptyFm).map
      (fun p => (practiceDocMeta ⟨some (str "typescript"), none⟩ p).language) =
      [str "general"]
    ∧ (parsePractices (str "## A\nx\n") ⟨none, none, some (str "typescript"), none, []⟩).map
      (fun p => (practiceDocMeta ⟨none, none⟩ p).language) = [str "typescript"] := by
  constructor
  · decide
  · decide

/-- C7, counterexample: on `"eslint: no-undef and @typescript-eslint/semi"`
the extractor returns the `@typescript-eslint/…` match before `no-undef`
(families are scanned one after the other), while the claim's order of
first occurrence in the section text would put `no-undef` first. -/
theorem c7_order_counterexample :
    specLintRulesOrdered (str "eslint: no-undef and @typescript-eslint/semi") ≠
    extractLintRules (str "eslint: no-undef and @typescript-eslint/semi") := by
  decide

/-- C7, amended: the extracted lint-rule list is the de-duplicated union of
the three pattern families' matches — without duplicates, a sublist of the
concatenation of the per-family match lists taken in family order (so
ordered family by family, each family's matches in text order), and
containing exactly the union's elements. -/
theorem c7_lint_rules_amended (content : Str) :
    (extractLintRules content).Nodup
    ∧ List.Sublist (extractLintRules content)
        (scanAll famAAt content ++ scanAll famBAt content ++ scanAll famCAt content)
    ∧ ∀ r, r ∈ extractLintRules content ↔
        r ∈ scanAll famAAt content ++ scanAll famBAt content ++ scanAll famCAt content := by
  refine ⟨nodup_dedupGo _ _, dedupGo_sublist _ _, fun r => ?_⟩
  rw [extractLintRules, dedupFirst, mem_dedupGo]
  simp

/-- C8, counterexample: the headings `A B` and `A-B` in one file both slug
to `a-b`, so the emitted ids of one file are not pairwise distinct. -/
theorem c8_slug_collision_counterexample :
    (parsePractices (str "## A B\nx\n\n## A-B\ny\n") emptyFm).map (fun p => p.id) =
      [str "a-b", str "a-b"]
    ∧ ¬ ((parsePractices (str "## A B\nx\n\n## A-B\ny\n") emptyFm).map
        (fun p => p.id)).Nodup := by
  constructor
  · decide
  · decide

/-- C8, amended: every emitted practice id is the slug of its heading text
(lowercased, non-alphanumeric runs collapsed to single hyphens, leading and
trailing hyphens stripped) and is well-formed — only lowercase
alphanumerics and single hyphens, no leading or trailing hyphen — but two
headings of one file may collide on the same id. -/
theorem c8_slug_amended (body : Str) (fm : Frontmatter) :
    (parsePractices body fm).all
      (fun p => (p.id == slugify p.title) && goodSlug p.id) = true := by
  rw [List.all_eq_true]
  intro p hp
  rw [parsePractices, List.mem_filterMap] at hp
  obtain ⟨sec, _, hmap⟩ := hp
  cases hm : matchH2 sec with
  | none => rw [hm] at hmap; simp at hmap
  | some q =>
    rw [hm] at hmap
    simp only [Option.map_some'] at hmap
    rw [Option.some_inj] at hmap
    subst hmap
    simp [mkPractice, goodSlug_slugify]

/-- C9 (spec-modelled, the splitter is the gray-matter dependency): a
document whose front-matter block is malformed yields an empty metadata
mapping, and its body is still processed into practices — the malformed
metadata never surfaces as an error and the file is not skipped. -/
theorem c9_malformed_front_matter (content : Str) (h : matterMalformed content = true) :
    (matterSplit content).1 = emptyFm
    ∧ fullPipeline content = parsePractices (matterSplit content).2 emptyFm := by
  rw [matterMalformed, Bool.and_eq_true] at h
  obtain ⟨h1, h2⟩ := h
  cases hsc : splitAtClose (content.drop 4) with
  | none => rw [hsc] at h2; simp at h2
  | some p =>
    obtain ⟨inside, after⟩ := p
    rw [hsc] at h2
    simp only [Option.isNone_iff_eq_none] at h2
    have hres : matterSplit content = (emptyFm, after) := by
      rw [matterSplit, if_pos h1, hsc]
      simp [h2]
    rw [fullPipeline, hres]
    exact ⟨rfl, rfl⟩

/-- C9, witness: a document with the malformed front-matter line `badline`
still yields its body's practices, via `c9_malformed_front_matter`. -/
theorem c9_malformed_front_matter_witness :
    matterMalformed (str "---\nbadline\n---\n## A\nIt must hold.\n") = true
    ∧ (matterSplit (str "---\nbadline\n---\n## A\nIt must hold.\n")).1 = emptyFm
    ∧ fullPipeline (str "---\nbadline\n---\n## A\nIt must hold.\n") =
        parsePractices (str "## A\nIt must hold.\n") emptyFm := by
  refine ⟨by decide,
    (c9_malformed_front_matter (str "---\nbadline\n---\n## A\nIt must hold.\n")
      (by decide)).1, ?_⟩
  have h := (c9_malformed_front_matter (str "---\nbadline\n---\n## A\nIt must hold.\n")
      (by decide)).2
  rw [h]
  rw [show (matterSplit (str "---\nbadline\n---\n## A\nIt must hold.\n")).2 =
      str "## A\nIt must hold.\n" from by decide]

/-- C10: for a section whose only fenced code block has whitespace-only
content (and no labeled example markers), the good example is present as
the empty string, and the document metadata nonetheless reports
`hasGoodExample = false` because JS truthiness treats the empty string as
absent. -/
theorem c10_whitespace_example (content : Str) (fb : Str × Str)
    (hg : labelSearch goodLabels content = none)
    (hb : labelSearch badLabels content = none)
    (hblocks : matchAllFences content = [fb])
    (htrim : trimStr fb.2 = []) :
    extractExamples content = ⟨some [], none⟩
    ∧ ∀ cfg p, p.goodExample = some [] →
        (practiceDocMeta cfg p).hasGoodExample = false := by
  constructor
  · obtain ⟨full1, cap1⟩ := fb
    simp only at htrim
    simp [extractExamples, hg, hb, jsTruthyOpt, exFallback, hblocks, htrim]
  · intro cfg p hp
    simp [practiceDocMeta, jsTruthyOpt, hp, List.isEmpty]

/-- C10, witness: the section `"Text.\n"` followed by a fence holding one
space has a single whitespace-only block; its good example is the empty
string, via `c10_whitespace_example`. -/
theorem c10_whitespace_example_witness :
    labelSearch goodLabels (str "Text.\n```\n \n```\n") = none
    ∧ labelSearch badLabels (str "Text.\n```\n \n```\n") = none
    ∧ matchAllFences (str "Text.\n```\n \n```\n") = [(str "```\n \n```", str " \n")]
    ∧ trimStr (str " \n") = []
    ∧ extractExamples (str "Text.\n```\n \n```\n") = ⟨some [], none⟩ := by
  refine ⟨by decide, by decide, by decide, by decide, ?_⟩
  exact (c10_whitespace_example (str "Text.\n```\n \n```\n") (str "```\n \n```", str " \n")
    (by decide) (by decide) (by decide) (by decide)).1
